import Mathlib

/-!
# Verification of the `multiprop` experiment logger

Shallow embedding of `src/logger.py` (class `Logger`) and the parts of the
driver script relevant to the claims.  Python values are modelled by the
inductive `PyVal`; the `self.logs` mapping (a `defaultdict(list)` keyed by
strings, insertion ordered) is modelled by an association list
`Logs = List (String × PyVal)` whose lookup returns the first binding.
Numbers are modelled by `ℚ`, fallible operations by `Option` or by an
explicit success flag (a Python exception aborts the operation but leaves
the mutations performed so far in place, so stateful methods return the
state together with the flag).
-/

set_option autoImplicit false

namespace Multiprop

/-- Python values, as far as the logger manipulates them: `None`, numbers
(ints and floats collapsed to `ℚ`), strings, lists and string-keyed dicts. -/
inductive PyVal : Type where
  | none : PyVal
  | num (q : ℚ) : PyVal
  | str (s : String) : PyVal
  | list (l : List PyVal) : PyVal
  | dict (d : List (String × PyVal)) : PyVal

/-- The `self.logs` mapping: an insertion-ordered association list from
metric names to values, modelling a Python (default)dict. -/
abbrev Logs : Type := List (String × PyVal)

/-- Python dict lookup `d[k]` (first binding wins; real dicts have unique
keys so this is exact), returning `none` where Python raises `KeyError`. -/
def dictGet {β : Type} : List (String × β) → String → Option β
  | [], _ => Option.none
  | (k, v) :: rest, k2 => if k = k2 then some v else dictGet rest k2

@[simp] theorem dictGet_nil {β : Type} (k : String) :
    dictGet ([] : List (String × β)) k = Option.none := rfl

theorem dictGet_cons {β : Type} (k1 : String) (v1 : β)
    (rest : List (String × β)) (k2 : String) :
    dictGet ((k1, v1) :: rest) k2 =
      if k1 = k2 then some v1 else dictGet rest k2 := rfl

/-- Replace the value bound to key `k` (Python `d[k] = v` for a present key). -/
def setVal {β : Type} (d : List (String × β)) (k : String) (v : β) :
    List (String × β) :=
  d.map (fun kv => if kv.1 = k then (k, v) else kv)

@[simp] theorem setVal_nil {β : Type} (k : String) (v : β) :
    setVal ([] : List (String × β)) k v = [] := rfl

theorem setVal_cons {β : Type} (k1 : String) (v1 : β)
    (rest : List (String × β)) (k : String) (v : β) :
    setVal ((k1, v1) :: rest) k v =
      (if k1 = k then (k, v) else (k1, v1)) :: setVal rest k v := rfl

/-- The value the expression `self.logs[k]` yields on a `defaultdict(list)`:
the stored value, or a fresh `[]` for a missing key. -/
def ddLookup (logs : Logs) (k : String) : PyVal :=
  (dictGet logs k).getD (PyVal.list [])

/-- The state effect of reading `self.logs[k]` on a `defaultdict(list)`:
a missing key is inserted with a fresh empty list (this mutation-on-read is
visible in the dict afterwards). -/
def ddInsert (logs : Logs) (k : String) : Logs :=
  match dictGet logs k with
  | some _ => logs
  | Option.none => logs ++ [(k, PyVal.list [])]

/-- `Logger.__init__`: `self.logs = defaultdict(list); self.logs['info'] = info`. -/
def initLogs (info : PyVal) : Logs := [("info", info)]

/-- The `sample_sets` list of `Logger.log`. -/
def sampleSets : List String := ["train", "valid", "test"]

/-- Model of the statement `self.logs[key].append(arg)` where evaluating
the argument expression may itself raise (`arg = Option.none`).  Python's
evaluation order is kept: the defaultdict read (which may insert the key)
and the `.append` attribute lookup (which raises on a non-list) happen
before the argument is evaluated.  Returns the new logs and whether the
statement completed without raising. -/
def appendStep (logs : Logs) (key : String) (arg : Option PyVal) : Logs × Bool :=
  match ddLookup logs key, arg with
  | PyVal.list l, some x =>
    (setVal (ddInsert logs key) key (PyVal.list (l ++ [x])), true)
  | _, _ => (ddInsert logs key, false)

/-- The value of the argument expression `results_dict[k]['loss']` (and
similarly `'roc'`): a `KeyError`/`TypeError` is `Option.none`. -/
def subGet (v : PyVal) (field : String) : Option PyVal :=
  match v with
  | PyVal.dict d => dictGet d field
  | _ => Option.none

/-- One iteration of the loop in `Logger.log` for the item `(k, v)` of
`results_dict`: either the two appends of the sample-set branch or the
single append of the general branch. -/
def logItem (logs : Logs) (k : String) (v : PyVal) : Logs × Bool :=
  if k ∈ sampleSets then
    if (appendStep logs (k ++ "_loss") (subGet v "loss")).2 then
      appendStep (appendStep logs (k ++ "_loss") (subGet v "loss")).1
        (k ++ "_roc") (subGet v "roc")
    else ((appendStep logs (k ++ "_loss") (subGet v "loss")).1, false)
  else
    appendStep logs k (some v)

/-- `Logger.log(results_dict)`: iterate over the items of `results_dict`
in order; an exception aborts the loop but earlier mutations persist. -/
def logRD (logs : Logs) : List (String × PyVal) → Logs × Bool
  | [] => (logs, true)
  | (k, v) :: rest =>
    if (logItem logs k v).2 then logRD (logItem logs k v).1 rest
    else ((logItem logs k v).1, false)

/-- The logs after constructing `Logger(info)` and calling `Logger.log`
once for each element of `rds` (keeping the state even of raising calls). -/
def logsAfter (info : PyVal) (rds : List (List (String × PyVal))) : Logs :=
  rds.foldl (fun lg rd => (logRD lg rd).1) (initLogs info)

/-- Whether a Python value is a list. -/
def isList : PyVal → Bool
  | PyVal.list _ => true
  | _ => false

/-- Whether a Python value is a scalar (a number). -/
def isScalar : PyVal → Bool
  | PyVal.num _ => true
  | _ => false

/-- Whether a Python value is a list of scalar values. -/
def isScalarList : PyVal → Bool
  | PyVal.list l => l.all isScalar
  | _ => false

/-! ## Basic lemmas about the dictionary operations -/

theorem dictGet_append {β : Type} (l1 l2 : List (String × β)) (k : String) :
    dictGet (l1 ++ l2) k =
      match dictGet l1 k with
      | some v => some v
      | Option.none => dictGet l2 k := by
  induction l1 with
  | nil => simp
  | cons kv rest ih =>
    rcases kv with ⟨k1, v1⟩
    by_cases h : k1 = k
    · rw [List.cons_append, dictGet_cons, dictGet_cons, if_pos h, if_pos h]
    · rw [List.cons_append, dictGet_cons, dictGet_cons, if_neg h, if_neg h, ih]

theorem dictGet_setVal {β : Type} (d : List (String × β)) (k : String) (v : β)
    (k2 : String) :
    dictGet (setVal d k v) k2 =
      if k2 = k then (dictGet d k).map (fun _ => v) else dictGet d k2 := by
  induction d with
  | nil => by_cases h : k2 = k <;> simp [h]
  | cons kv rest ih =>
    rcases kv with ⟨k1, v1⟩
    by_cases h1 : k1 = k
    · subst h1
      by_cases h2 : k1 = k2
      · subst h2
        simp [setVal_cons, dictGet_cons]
      · have h2' : ¬ k2 = k1 := fun hh => h2 hh.symm
        simp [setVal_cons, dictGet_cons, h2, h2', ih]
    · by_cases h2 : k1 = k2
      · subst h2
        have h1' : ¬ k1 = k := h1
        simp [setVal_cons, dictGet_cons, h1', ih]
      · simp [setVal_cons, dictGet_cons, h1, h2, ih]

theorem dictGet_ddInsert (logs : Logs) (k k2 : String) :
    dictGet (ddInsert logs k) k2 =
      if k2 = k then some (ddLookup logs k) else dictGet logs k2 := by
  unfold ddInsert ddLookup
  cases hget : dictGet logs k with
  | some v =>
    by_cases h : k2 = k
    · subst h; rw [if_pos rfl, hget]; rfl
    · rw [if_neg h]
  | none =>
    rw [dictGet_append]
    by_cases h : k2 = k
    · subst h
      rw [if_pos rfl, hget]
      simp [dictGet_cons]
    · rw [if_neg h]
      have h' : ¬ k = k2 := fun hh => h hh.symm
      cases hget2 : dictGet logs k2 with
      | some v => rfl
      | none => simp [dictGet_cons, h']

theorem mem_ddInsert (logs : Logs) (k : String) (p : String × PyVal)
    (hp : p ∈ ddInsert logs k) : p ∈ logs ∨ p = (k, PyVal.list []) := by
  unfold ddInsert at hp
  cases hget : dictGet logs k with
  | some v => rw [hget] at hp; exact Or.inl hp
  | none =>
    rw [hget] at hp
    rcases List.mem_append.mp hp with h1 | h2
    · exact Or.inl h1
    · exact Or.inr (List.mem_singleton.mp h2)

theorem mem_setVal {β : Type} (d : List (String × β)) (k : String) (v : β)
    (p : String × β) (hp : p ∈ setVal d k v) : p ∈ d ∨ p = (k, v) := by
  unfold setVal at hp
  rcases List.mem_map.mp hp with ⟨kv, hkv, heq⟩
  by_cases hcase : kv.1 = k
  · rw [if_pos hcase] at heq
    exact Or.inr heq.symm
  · rw [if_neg hcase] at heq
    exact Or.inl (heq ▸ hkv)

/-- Frame property of `appendStep`: keys other than `key` are untouched. -/
theorem dictGet_appendStep (logs : Logs) (key : String) (arg : Option PyVal)
    (k2 : String) (h : k2 ≠ key) :
    dictGet (appendStep logs key arg).1 k2 = dictGet logs k2 := by
  have hins := dictGet_ddInsert logs key k2
  rw [if_neg h] at hins
  unfold appendStep
  cases hcur : ddLookup logs key with
  | list l =>
    cases arg with
    | some x =>
      simp only
      rw [dictGet_setVal, if_neg h, hins]
    | none => exact hins
  | none => exact hins
  | num q => exact hins
  | str s => exact hins
  | dict d => exact hins

/-- A successful `appendStep` appends its argument to the list at `key`. -/
theorem appendStep_success (logs : Logs) (key : String) (arg : Option PyVal)
    (h : (appendStep logs key arg).2 = true) :
    ∃ l x, ddLookup logs key = PyVal.list l ∧ arg = some x ∧
      dictGet (appendStep logs key arg).1 key = some (PyVal.list (l ++ [x])) := by
  have hself := dictGet_ddInsert logs key key
  rw [if_pos rfl] at hself
  unfold appendStep at h ⊢
  cases hcur : ddLookup logs key with
  | list l =>
    cases arg with
    | some x =>
      refine ⟨l, x, rfl, rfl, ?_⟩
      simp only
      rw [dictGet_setVal, if_pos rfl, hself]
      rfl
    | none => rw [hcur] at h; simp at h
  | none => rw [hcur] at h; simp at h
  | num q => rw [hcur] at h; simp at h
  | str s => rw [hcur] at h; simp at h
  | dict d => rw [hcur] at h; simp at h

/-- `appendStep` succeeds when the stored value is a list and the argument
expression evaluates. -/
theorem appendStep_succeeds (logs : Logs) (key : String) (l : List PyVal)
    (x : PyVal) (h : ddLookup logs key = PyVal.list l) :
    (appendStep logs key (some x)).2 = true := by
  unfold appendStep
  rw [h]

/-- Any binding of the result of `appendStep` is either an original binding
or holds a list. -/
theorem mem_appendStep (logs : Logs) (key : String) (arg : Option PyVal)
    (p : String × PyVal) (hmem : p ∈ (appendStep logs key arg).1) :
    p ∈ logs ∨ ∃ l, p.2 = PyVal.list l := by
  have hins : ∀ q, q ∈ ddInsert logs key → q ∈ logs ∨ ∃ l, q.2 = PyVal.list l := by
    intro q hq
    rcases mem_ddInsert logs key q hq with h1 | h2
    · exact Or.inl h1
    · exact Or.inr ⟨[], by rw [h2]⟩
  unfold appendStep at hmem
  cases hcur : ddLookup logs key with
  | list l =>
    cases arg with
    | some x =>
      rw [hcur] at hmem
      simp only at hmem
      rcases mem_setVal _ _ _ _ hmem with h1 | h2
      · exact hins p h1
      · exact Or.inr ⟨l ++ [x], by rw [h2]⟩
    | none => rw [hcur] at hmem; exact hins p hmem
  | none => rw [hcur] at hmem; exact hins p hmem
  | num q => rw [hcur] at hmem; exact hins p hmem
  | str s => rw [hcur] at hmem; exact hins p hmem
  | dict d => rw [hcur] at hmem; exact hins p hmem

/-! ## Keys touched by a `Logger.log` call -/

/-- The keys of `self.logs` a single loop iteration of `Logger.log` for
result key `k` reads or writes. -/
def itemKeys (k : String) : List String :=
  if k ∈ sampleSets then [k ++ "_loss", k ++ "_roc"] else [k]

/-- The keys of `self.logs` a `Logger.log(results_dict)` call reads or
writes, in iteration order. -/
def affectedKeys : List (String × PyVal) → List String
  | [] => []
  | (k, _) :: rest => itemKeys k ++ affectedKeys rest

theorem append_loss_ne_roc (k : String) (hks : k ∈ sampleSets) :
    k ++ "_loss" ≠ k ++ "_roc" := by
  have h : k = "train" ∨ k = "valid" ∨ k = "test" := by
    simpa [sampleSets] using hks
  rcases h with rfl | rfl | rfl <;> decide

theorem sample_key_ne (s k : String) (hs : s ∈ sampleSets)
    (hk : k ∈ sampleSets) (hne : s ≠ k) :
    s ++ "_loss" ≠ k ++ "_loss" ∧ s ++ "_loss" ≠ k ++ "_roc" ∧
      s ++ "_roc" ≠ k ++ "_loss" ∧ s ++ "_roc" ≠ k ++ "_roc" := by
  have h1 : s = "train" ∨ s = "valid" ∨ s = "test" := by
    simpa [sampleSets] using hs
  have h2 : k = "train" ∨ k = "valid" ∨ k = "test" := by
    simpa [sampleSets] using hk
  rcases h1 with rfl | rfl | rfl <;> rcases h2 with rfl | rfl | rfl <;>
    first
      | exact absurd rfl hne
      | exact ⟨by decide, by decide, by decide, by decide⟩

theorem subset_affectedKeys (rd : List (String × PyVal)) (k : String)
    (v : PyVal) (hmem : (k, v) ∈ rd) :
    ∀ k2 ∈ itemKeys k, k2 ∈ affectedKeys rd := by
  induction rd with
  | nil => cases hmem
  | cons kv rest ih =>
    intro k2 hk2
    rcases List.mem_cons.mp hmem with h1 | h1
    · rw [← h1]
      unfold affectedKeys
      exact List.mem_append_left _ hk2
    · rcases kv with ⟨ka, va⟩
      unfold affectedKeys
      exact List.mem_append_right _ (ih h1 k2 hk2)

/-- Frame property of a `Logger.log` loop iteration: keys outside
`itemKeys k` are untouched, whether or not the iteration raises. -/
theorem logItem_frame (logs : Logs) (k : String) (v : PyVal) (k2 : String)
    (h : k2 ∉ itemKeys k) :
    dictGet (logItem logs k v).1 k2 = dictGet logs k2 := by
  unfold logItem
  unfold itemKeys at h
  by_cases hks : k ∈ sampleSets
  · rw [if_pos hks] at h ⊢
    have h1 : k2 ≠ k ++ "_loss" := by
      intro he; exact h (he ▸ List.mem_cons_self _ _)
    have h2 : k2 ≠ k ++ "_roc" := by
      intro he
      exact h (he ▸ List.mem_cons_of_mem _ (List.mem_cons_self _ _))
    by_cases hs : (appendStep logs (k ++ "_loss") (subGet v "loss")).2 = true
    · rw [if_pos hs]
      rw [dictGet_appendStep _ (k ++ "_roc") (subGet v "roc") k2 h2,
        dictGet_appendStep logs (k ++ "_loss") (subGet v "loss") k2 h1]
    · rw [if_neg hs]
      exact dictGet_appendStep logs (k ++ "_loss") (subGet v "loss") k2 h1
  · rw [if_neg hks] at h ⊢
    have h1 : k2 ≠ k := by
      intro he; exact h (he ▸ List.mem_cons_self _ _)
    exact dictGet_appendStep logs k (some v) k2 h1

/-- A successful sample-set iteration of `Logger.log` appends the `'loss'`
and `'roc'` entries of the sub-dict to `logs[k+'_loss']` and
`logs[k+'_roc']`. -/
theorem logItem_sample_success (logs : Logs) (k : String) (v : PyVal)
    (hks : k ∈ sampleSets) (hok : (logItem logs k v).2 = true) :
    ∃ d lossV rocV l1 l2, v = PyVal.dict d ∧
      dictGet d "loss" = some lossV ∧ dictGet d "roc" = some rocV ∧
      ddLookup logs (k ++ "_loss") = PyVal.list l1 ∧
      ddLookup logs (k ++ "_roc") = PyVal.list l2 ∧
      dictGet (logItem logs k v).1 (k ++ "_loss") =
        some (PyVal.list (l1 ++ [lossV])) ∧
      dictGet (logItem logs k v).1 (k ++ "_roc") =
        some (PyVal.list (l2 ++ [rocV])) := by
  unfold logItem at hok ⊢
  rw [if_pos hks] at hok ⊢
  by_cases hs : (appendStep logs (k ++ "_loss") (subGet v "loss")).2 = true
  · rw [if_pos hs] at hok ⊢
    obtain ⟨l1, x1, hdl1, harg1, hres1⟩ :=
      appendStep_success logs (k ++ "_loss") (subGet v "loss") hs
    obtain ⟨d, hvd, hget1⟩ : ∃ d, v = PyVal.dict d ∧ dictGet d "loss" = some x1 := by
      cases v with
      | dict d => exact ⟨d, rfl, harg1⟩
      | none => cases harg1
      | num q => cases harg1
      | str s => cases harg1
      | list l => cases harg1
    obtain ⟨l2, x2, hdl2, harg2, hres2⟩ :=
      appendStep_success (appendStep logs (k ++ "_loss") (subGet v "loss")).1
        (k ++ "_roc") (subGet v "roc") hok
    have hget2 : dictGet d "roc" = some x2 := by
      rw [hvd] at harg2
      exact harg2
    have hne : (k ++ "_roc" : String) ≠ k ++ "_loss" :=
      fun he => append_loss_ne_roc k hks he.symm
    have hfr : dictGet (appendStep logs (k ++ "_loss") (subGet v "loss")).1
        (k ++ "_roc") = dictGet logs (k ++ "_roc") :=
      dictGet_appendStep logs (k ++ "_loss") (subGet v "loss") (k ++ "_roc") hne
    have hdl2' : ddLookup logs (k ++ "_roc") = PyVal.list l2 := by
      unfold ddLookup at hdl2 ⊢
      rw [← hfr]
      exact hdl2
    have hfin1 : dictGet (appendStep
        (appendStep logs (k ++ "_loss") (subGet v "loss")).1
        (k ++ "_roc") (subGet v "roc")).1 (k ++ "_loss") =
        some (PyVal.list (l1 ++ [x1])) := by
      rw [dictGet_appendStep _ (k ++ "_roc") (subGet v "roc")
        (k ++ "_loss") (append_loss_ne_roc k hks), hres1]
    exact ⟨d, x1, x2, l1, l2, hvd, hget1, hget2, hdl1, hdl2', hfin1, hres2⟩
  · rw [if_neg hs] at hok
    exact Bool.noConfusion hok

/-- A successful general iteration of `Logger.log` appends the value to
`logs[k]`. -/
theorem logItem_other_success (logs : Logs) (k : String) (v : PyVal)
    (hks : k ∉ sampleSets) (hok : (logItem logs k v).2 = true) :
    ∃ l, ddLookup logs k = PyVal.list l ∧
      dictGet (logItem logs k v).1 k = some (PyVal.list (l ++ [v])) := by
  unfold logItem at hok ⊢
  rw [if_neg hks] at hok ⊢
  obtain ⟨l, x, hdl, harg, hres⟩ := appendStep_success logs k (some v) hok
  obtain rfl : x = v := by injection harg with h; exact h.symm
  exact ⟨l, hdl, hres⟩

/-! ## C3: the specification of `Logger.log` -/

/-- C3: a non-raising `Logger.log(results_dict)` call, for a
`results_dict` whose touched log keys are pairwise distinct (Python dict
keys are unique, so this only excludes collisions such as both `'train'`
and `'train_loss'` occurring), appends `results_dict[k]['loss']` to
`logs[k+'_loss']` and `results_dict[k]['roc']` to `logs[k+'_roc']` for
every sample-set key `k`, appends `results_dict[k]` to `logs[k]` for every
other key `k`, and changes no other entry of `logs`. -/
theorem log_appends (logs0 : Logs) (rd : List (String × PyVal))
    (hnd : (affectedKeys rd).Nodup)
    (hok : (logRD logs0 rd).2 = true) :
    (∀ k v, (k, v) ∈ rd → k ∈ sampleSets →
      ∃ d lossV rocV l1 l2, v = PyVal.dict d ∧
        dictGet d "loss" = some lossV ∧ dictGet d "roc" = some rocV ∧
        ddLookup logs0 (k ++ "_loss") = PyVal.list l1 ∧
        ddLookup logs0 (k ++ "_roc") = PyVal.list l2 ∧
        dictGet (logRD logs0 rd).1 (k ++ "_loss") =
          some (PyVal.list (l1 ++ [lossV])) ∧
        dictGet (logRD logs0 rd).1 (k ++ "_roc") =
          some (PyVal.list (l2 ++ [rocV]))) ∧
    (∀ k v, (k, v) ∈ rd → k ∉ sampleSets →
      ∃ l, ddLookup logs0 k = PyVal.list l ∧
        dictGet (logRD logs0 rd).1 k = some (PyVal.list (l ++ [v]))) ∧
    (∀ k2, k2 ∉ affectedKeys rd →
      dictGet (logRD logs0 rd).1 k2 = dictGet logs0 k2) := by
  induction rd generalizing logs0 with
  | nil =>
    refine ⟨?_, ?_, ?_⟩
    · intro k v hmem; cases hmem
    · intro k v hmem; cases hmem
    · intro k2 _; rfl
  | cons kv rest ih =>
    rcases kv with ⟨k, v⟩
    have hsplit : (itemKeys k).Nodup ∧ (affectedKeys rest).Nodup ∧
        ∀ k2 ∈ itemKeys k, k2 ∉ affectedKeys rest := by
      have := hnd
      unfold affectedKeys at this
      rw [List.nodup_append] at this
      exact ⟨this.1, this.2.1, fun k2 h2 => this.2.2 h2⟩
    unfold logRD at hok ⊢
    by_cases hs : (logItem logs0 k v).2 = true
    · rw [if_pos hs] at hok ⊢
      obtain ⟨ihA, ihB, ihFrame⟩ := ih (logItem logs0 k v).1 hsplit.2.1 hok
      have hfr_item : ∀ k2, k2 ∉ itemKeys k →
          dictGet (logItem logs0 k v).1 k2 = dictGet logs0 k2 := by
        intro k2 h2
        exact logItem_frame logs0 k v k2 h2
      have hfr_rest : ∀ k2 ∈ itemKeys k,
          dictGet (logRD (logItem logs0 k v).1 rest).1 k2 =
            dictGet (logItem logs0 k v).1 k2 := by
        intro k2 h2
        exact ihFrame k2 (hsplit.2.2 k2 h2)
      refine ⟨?_, ?_, ?_⟩
      · intro k' v' hmem hks'
        rcases List.mem_cons.mp hmem with hhead | htail
        · obtain ⟨hk', hv'⟩ : k' = k ∧ v' = v := by
            rw [Prod.mk.injEq] at hhead
            exact hhead
          subst hk'; subst hv'
          obtain ⟨d, lossV, rocV, l1, l2, hv, hloss, hroc, hdl1, hdl2, hr1, hr2⟩ :=
            logItem_sample_success logs0 k' v' hks' hs
          have hm1 : (k' ++ "_loss") ∈ itemKeys k' := by
            unfold itemKeys
            rw [if_pos hks']
            exact List.mem_cons_self _ _
          have hm2 : (k' ++ "_roc") ∈ itemKeys k' := by
            unfold itemKeys
            rw [if_pos hks']
            exact List.mem_cons_of_mem _ (List.mem_cons_self _ _)
          exact ⟨d, lossV, rocV, l1, l2, hv, hloss, hroc, hdl1, hdl2,
            by rw [hfr_rest _ hm1, hr1], by rw [hfr_rest _ hm2, hr2]⟩
        · obtain ⟨d, lossV, rocV, l1, l2, hv, hloss, hroc, hdl1, hdl2, hr1, hr2⟩ :=
            ihA k' v' htail hks'
          have hsub := subset_affectedKeys rest k' v' htail
          have hm1 : (k' ++ "_loss") ∈ itemKeys k' := by
            unfold itemKeys
            rw [if_pos hks']
            exact List.mem_cons_self _ _
          have hm2 : (k' ++ "_roc") ∈ itemKeys k' := by
            unfold itemKeys
            rw [if_pos hks']
            exact List.mem_cons_of_mem _ (List.mem_cons_self _ _)
          have hni1 : (k' ++ "_loss") ∉ itemKeys k := by
            intro hin
            exact hsplit.2.2 _ hin (hsub _ hm1)
          have hni2 : (k' ++ "_roc") ∉ itemKeys k := by
            intro hin
            exact hsplit.2.2 _ hin (hsub _ hm2)
          have he1 : ddLookup logs0 (k' ++ "_loss") = PyVal.list l1 := by
            unfold ddLookup at hdl1 ⊢
            rw [← hfr_item _ hni1]
            exact hdl1
          have he2 : ddLookup logs0 (k' ++ "_roc") = PyVal.list l2 := by
            unfold ddLookup at hdl2 ⊢
            rw [← hfr_item _ hni2]
            exact hdl2
          exact ⟨d, lossV, rocV, l1, l2, hv, hloss, hroc, he1, he2, hr1, hr2⟩
      · intro k' v' hmem hks'
        rcases List.mem_cons.mp hmem with hhead | htail
        · obtain ⟨hk', hv'⟩ : k' = k ∧ v' = v := by
            rw [Prod.mk.injEq] at hhead
            exact hhead
          subst hk'; subst hv'
          obtain ⟨l, hdl, hres⟩ := logItem_other_success logs0 k' v' hks' hs
          have hm : k' ∈ itemKeys k' := by
            unfold itemKeys
            rw [if_neg hks']
            exact List.mem_cons_self _ _
          exact ⟨l, hdl, by rw [hfr_rest _ hm, hres]⟩
        · obtain ⟨l, hdl, hres⟩ := ihB k' v' htail hks'
          have hsub := subset_affectedKeys rest k' v' htail
          have hm : k' ∈ itemKeys k' := by
            unfold itemKeys
            rw [if_neg hks']
            exact List.mem_cons_self _ _
          have hni : k' ∉ itemKeys k := by
            intro hin
            exact hsplit.2.2 _ hin (hsub _ hm)
          have he : ddLookup logs0 k' = PyVal.list l := by
            unfold ddLookup at hdl ⊢
            rw [← hfr_item _ hni]
            exact hdl
          exact ⟨l, he, hres⟩
      · intro k2 hk2
        have hni : k2 ∉ itemKeys k := by
          intro hin
          apply hk2
          unfold affectedKeys
          exact List.mem_append_left _ hin
        have hnr : k2 ∉ affectedKeys rest := by
          intro hin
          apply hk2
          unfold affectedKeys
          exact List.mem_append_right _ hin
        rw [ihFrame k2 hnr, hfr_item k2 hni]
    · rw [if_neg hs] at hok
      exact Bool.noConfusion hok

/-- Concrete `results_dict` used by the witness of `log_appends`. -/
def rdSample : List (String × PyVal) :=
  [("train", PyVal.dict [("loss", PyVal.num 1), ("roc", PyVal.num 2)]),
   ("lr", PyVal.num 3)]

/-- Witness for `log_appends` on a concrete training-results dict. -/
theorem log_appends_witness :
    (affectedKeys rdSample).Nodup ∧
      (logRD (initLogs PyVal.none) rdSample).2 = true ∧
      (∀ k v, (k, v) ∈ rdSample → k ∉ sampleSets →
        ∃ l, ddLookup (initLogs PyVal.none) k = PyVal.list l ∧
          dictGet (logRD (initLogs PyVal.none) rdSample).1 k =
            some (PyVal.list (l ++ [v]))) :=
  ⟨by decide, by rfl,
    (log_appends (initLogs PyVal.none) rdSample (by decide) (by rfl)).2.1⟩

/-! ## C4: list-length alignment -/

/-- Python `len` on a model value (only ever applied to lists here). -/
def pyLen : PyVal → ℕ
  | PyVal.list l => l.length
  | _ => 0

/-- The alignment invariant of the claim: for each sample set `s`,
`len(logs[s+'_loss']) == len(logs[s+'_roc'])`. -/
def aligned (logs : Logs) : Prop :=
  ∀ s ∈ sampleSets,
    pyLen (ddLookup logs (s ++ "_loss")) = pyLen (ddLookup logs (s ++ "_roc"))

instance (logs : Logs) : Decidable (aligned logs) := by
  unfold aligned
  infer_instance

/-- C4 (counterexample to the claim as stated): logging the results dict
`{'train_loss': 0}` succeeds — `'train_loss'` is not a sample-set key, so
the general branch appends `0` to `logs['train_loss']` — and breaks the
alignment `len(logs['train_loss']) == len(logs['train_roc'])` that held
before the call. -/
theorem log_alignment_cex :
    aligned (initLogs PyVal.none) ∧
      (logRD (initLogs PyVal.none) [("train_loss", PyVal.num 0)]).2 = true ∧
      ¬ aligned (logRD (initLogs PyVal.none) [("train_loss", PyVal.num 0)]).1 :=
  ⟨by decide, by rfl, by decide⟩

/-- C4 (amended claim): a `Logger.log` call that completes without raising
and whose `results_dict` contains none of the keys `s+'_loss'`, `s+'_roc'`
for `s` in `{'train','valid','test'}` preserves the alignment
`len(logs[s+'_loss']) == len(logs[s+'_roc'])` for every sample set `s`. -/
theorem log_preserves_alignment (logs0 : Logs) (rd : List (String × PyVal))
    (hok : (logRD logs0 rd).2 = true)
    (hkeys : ∀ s ∈ sampleSets,
      (s ++ "_loss") ∉ rd.map Prod.fst ∧ (s ++ "_roc") ∉ rd.map Prod.fst)
    (hal : aligned logs0) : aligned (logRD logs0 rd).1 := by
  induction rd generalizing logs0 with
  | nil => exact hal
  | cons kv rest ih =>
    rcases kv with ⟨k, v⟩
    unfold logRD at hok ⊢
    by_cases hoki : (logItem logs0 k v).2 = true
    case neg =>
      rw [if_neg hoki] at hok
      exact Bool.noConfusion hok
    case pos =>
      rw [if_pos hoki] at hok ⊢
      have hkeys_rest : ∀ s ∈ sampleSets,
          (s ++ "_loss") ∉ rest.map Prod.fst ∧
            (s ++ "_roc") ∉ rest.map Prod.fst := by
        intro s hs
        obtain ⟨h1, h2⟩ := hkeys s hs
        rw [List.map_cons] at h1 h2
        exact ⟨fun hm => h1 (List.mem_cons_of_mem _ hm),
          fun hm => h2 (List.mem_cons_of_mem _ hm)⟩
      refine ih (logItem logs0 k v).1 hok hkeys_rest ?_
      intro s hs
      by_cases hks : k ∈ sampleSets
      · by_cases hsk : s = k
        · subst hsk
          obtain ⟨d, lossV, rocV, l1, l2, _, _, _, hdl1, hdl2, hr1, hr2⟩ :=
            logItem_sample_success logs0 s v hks hoki
          have hlen1 : pyLen (ddLookup (logItem logs0 s v).1 (s ++ "_loss")) =
              l1.length + 1 := by
            unfold ddLookup
            rw [hr1]
            simp [pyLen]
          have hlen2 : pyLen (ddLookup (logItem logs0 s v).1 (s ++ "_roc")) =
              l2.length + 1 := by
            unfold ddLookup
            rw [hr2]
            simp [pyLen]
          have hbefore := hal s hs
          rw [hdl1, hdl2] at hbefore
          simp [pyLen] at hbefore
          rw [hlen1, hlen2, hbefore]
        · obtain ⟨hne1, hne2, hne3, hne4⟩ := sample_key_ne s k hs hks hsk
          have hni1 : (s ++ "_loss") ∉ itemKeys k := by
            unfold itemKeys
            rw [if_pos hks]
            intro hin
            rcases List.mem_cons.mp hin with h1 | h1
            · exact hne1 h1
            · exact hne2 (List.mem_singleton.mp h1)
          have hni2 : (s ++ "_roc") ∉ itemKeys k := by
            unfold itemKeys
            rw [if_pos hks]
            intro hin
            rcases List.mem_cons.mp hin with h1 | h1
            · exact hne3 h1
            · exact hne4 (List.mem_singleton.mp h1)
          unfold ddLookup
          rw [logItem_frame logs0 k v _ hni1, logItem_frame logs0 k v _ hni2]
          exact hal s hs
      · have hkmem : k ∈ ((k, v) :: rest).map Prod.fst := by
          rw [List.map_cons]
          exact List.mem_cons_self _ _
        obtain ⟨h1, h2⟩ := hkeys s hs
        have hni1 : (s ++ "_loss") ∉ itemKeys k := by
          unfold itemKeys
          rw [if_neg hks]
          intro hin
          rw [List.mem_singleton.mp hin] at h1
          exact h1 hkmem
        have hni2 : (s ++ "_roc") ∉ itemKeys k := by
          unfold itemKeys
          rw [if_neg hks]
          intro hin
          rw [List.mem_singleton.mp hin] at h2
          exact h2 hkmem
        unfold ddLookup
        rw [logItem_frame logs0 k v _ hni1, logItem_frame logs0 k v _ hni2]
        exact hal s hs

/-- Witness for `log_preserves_alignment` on a concrete call. -/
theorem log_preserves_alignment_witness :
    (logRD (initLogs PyVal.none) rdSample).2 = true ∧
      aligned (logRD (initLogs PyVal.none) rdSample).1 :=
  ⟨by rfl,
    log_preserves_alignment (initLogs PyVal.none) rdSample (by rfl)
      (by decide) (by decide)⟩

/-! ## C7: what the logs mapping stores -/

/-- A `Logger.log` loop iteration only writes list values. -/
theorem mem_logItem (logs : Logs) (k : String) (v : PyVal) (p : String × PyVal)
    (hp : p ∈ (logItem logs k v).1) : p ∈ logs ∨ ∃ l, p.2 = PyVal.list l := by
  unfold logItem at hp
  by_cases hks : k ∈ sampleSets
  · rw [if_pos hks] at hp
    by_cases hs : (appendStep logs (k ++ "_loss") (subGet v "loss")).2 = true
    · rw [if_pos hs] at hp
      rcases mem_appendStep (appendStep logs (k ++ "_loss") (subGet v "loss")).1
          (k ++ "_roc") (subGet v "roc") p hp with h2 | h2
      · rcases mem_appendStep logs (k ++ "_loss") (subGet v "loss") p h2 with h3 | h3
        · exact Or.inl h3
        · exact Or.inr h3
      · exact Or.inr h2
    · rw [if_neg hs] at hp
      exact mem_appendStep logs (k ++ "_loss") (subGet v "loss") p hp
  · rw [if_neg hks] at hp
    exact mem_appendStep logs k (some v) p hp

/-- A whole `Logger.log` call only writes list values. -/
theorem mem_logRD (logs : Logs) (rd : List (String × PyVal)) (p : String × PyVal)
    (hp : p ∈ (logRD logs rd).1) : p ∈ logs ∨ ∃ l, p.2 = PyVal.list l := by
  induction rd generalizing logs with
  | nil => exact Or.inl hp
  | cons kv rest ih =>
    rcases kv with ⟨k, v⟩
    unfold logRD at hp
    by_cases hs : (logItem logs k v).2 = true
    · rw [if_pos hs] at hp
      rcases ih (logItem logs k v).1 hp with h1 | h1
      · exact mem_logItem logs k v p h1
      · exact Or.inr h1
    · rw [if_neg hs] at hp
      exact mem_logItem logs k v p hp

/-- C7 (amended claim): after constructing `Logger(info)` with any info
argument and performing any sequence of `Logger.log` calls, every value
stored in `self.logs` at a key other than `'info'` is a list (the binding
at `'info'` holds the constructor's `info` argument, which need not be a
list of scalars). -/
theorem logsAfter_values_are_lists (info : PyVal)
    (rds : List (List (String × PyVal))) (k : String) (v : PyVal)
    (hmem : (k, v) ∈ logsAfter info rds) (hk : k ≠ "info") :
    ∃ l, v = PyVal.list l := by
  have main : ∀ (rds2 : List (List (String × PyVal))) (logs : Logs),
      (∀ p : String × PyVal, p ∈ logs → p.1 ≠ "info" → ∃ l, p.2 = PyVal.list l) →
      ∀ p : String × PyVal,
        p ∈ rds2.foldl (fun lg rd => (logRD lg rd).1) logs →
        p.1 ≠ "info" → ∃ l, p.2 = PyVal.list l := by
    intro rds2
    induction rds2 with
    | nil => intro logs h p hp; exact h p hp
    | cons rd rest ih =>
      intro logs h p hp hne
      rw [List.foldl_cons] at hp
      refine ih (logRD logs rd).1 ?_ p hp hne
      intro q hq hqne
      rcases mem_logRD logs rd q hq with h1 | h1
      · exact h q h1 hqne
      · exact h1
  have hinit : ∀ p : String × PyVal, p ∈ initLogs info → p.1 ≠ "info" →
      ∃ l, p.2 = PyVal.list l := by
    intro p hp hne
    rcases List.mem_singleton.mp hp with h
    rw [h] at hne
    exact absurd rfl hne
  exact main rds (initLogs info) hinit (k, v) hmem hk

/-- Witness for `logsAfter_values_are_lists` at a concrete log call. -/
theorem logsAfter_values_are_lists_witness :
    ("lr", PyVal.list [PyVal.num 1]) ∈
        logsAfter PyVal.none [[("lr", PyVal.num 1)]] ∧
      ∃ l, PyVal.list [PyVal.num 1] = PyVal.list l := by
  have hmem : ("lr", PyVal.list [PyVal.num 1]) ∈
      logsAfter PyVal.none [[("lr", PyVal.num 1)]] := by
    show ("lr", PyVal.list [PyVal.num 1]) ∈
      [("info", PyVal.none), ("lr", PyVal.list [PyVal.num 1])]
    exact List.mem_cons_of_mem _ (List.mem_cons_self _ _)
  exact ⟨hmem,
    logsAfter_values_are_lists PyVal.none [[("lr", PyVal.num 1)]] "lr"
      (PyVal.list [PyVal.num 1]) hmem (by decide)⟩

/-- C7 (counterexample to the claim as stated): the constructor stores the
`info` argument itself under `'info'`, and for `Logger(3)` that value is
not a list of scalars. -/
theorem logger_stores_nonlist_info :
    dictGet (logsAfter (PyVal.num 3) []) "info" = some (PyVal.num 3) ∧
      isScalarList (PyVal.num 3) = false :=
  ⟨rfl, rfl⟩

/-! ## C1: `Logger.run_slice` -/

/-- Python `list.index(a)`: the index of the first element equal to `a`,
`Option.none` where Python raises `ValueError`. -/
def pyIndex {α : Type} [DecidableEq α] : List α → α → Option ℕ
  | [], _ => Option.none
  | x :: xs, a => if x = a then some 0 else (pyIndex xs a).map (· + 1)

/-- `Logger.run_slice(run, run_list)`:
`run_start = run_list.index(run)`,
`run_end = len(run_list) - run_list[::-1].index(run)`,
returning the pair `(run_start, run_end)` of the Python
`slice(run_start, run_end)`. -/
def run_slice {α : Type} [DecidableEq α] (run : α) (run_list : List α) :
    Option (ℕ × ℕ) :=
  match pyIndex run_list run, pyIndex run_list.reverse run with
  | some s, some j => some (s, run_list.length - j)
  | _, _ => Option.none

/-- All occurrences of `r` in `rl` are contiguous. -/
def Contiguous {α : Type} (r : α) (rl : List α) : Prop :=
  ∀ k, k < rl.length → ∀ j, j ≤ k → ∀ i, i ≤ j →
    rl[i]? = some r → rl[k]? = some r → rl[j]? = some r

instance {α : Type} [DecidableEq α] (r : α) (rl : List α) :
    Decidable (Contiguous r rl) := by
  unfold Contiguous
  exact Nat.decidableBallLT rl.length _

theorem pyIndex_eq_some {α : Type} [DecidableEq α] (l : List α) (a : α) (n : ℕ)
    (h : pyIndex l a = some n) :
    l[n]? = some a ∧ ∀ i, i < n → l[i]? ≠ some a := by
  induction l generalizing n with
  | nil => cases h
  | cons x xs ih =>
    unfold pyIndex at h
    by_cases hx : x = a
    · rw [if_pos hx] at h
      obtain rfl : n = 0 := (Option.some.injEq _ _ ▸ h).symm
      subst hx
      exact ⟨List.getElem?_cons_zero, fun i hi => absurd hi (Nat.not_lt_zero i)⟩
    · rw [if_neg hx] at h
      cases hsub : pyIndex xs a with
      | none => rw [hsub] at h; cases h
      | some m =>
        rw [hsub] at h
        obtain rfl : n = m + 1 := (Option.some.injEq _ _ ▸ h).symm
        obtain ⟨h1, h2⟩ := ih m hsub
        refine ⟨by rw [List.getElem?_cons_succ]; exact h1, ?_⟩
        intro i hi
        cases i with
        | zero =>
          rw [List.getElem?_cons_zero]
          intro he
          exact hx (Option.some.injEq _ _ ▸ he)
        | succ j =>
          rw [List.getElem?_cons_succ]
          exact h2 j (Nat.lt_of_succ_lt_succ hi)

theorem pyIndex_of_mem {α : Type} [DecidableEq α] (l : List α) (a : α)
    (h : a ∈ l) : ∃ n, pyIndex l a = some n := by
  induction l with
  | nil => cases h
  | cons x xs ih =>
    unfold pyIndex
    by_cases hx : x = a
    · exact ⟨0, by rw [if_pos hx]⟩
    · rcases List.mem_cons.mp h with h1 | h1
      · exact absurd h1.symm hx
      · obtain ⟨m, hm⟩ := ih h1
        exact ⟨m + 1, by rw [if_neg hx, hm]; rfl⟩

/-- C1: for a run identifier `r` occurring in `run_list` with all its
occurrences contiguous, `Logger.run_slice(r, run_list)` returns the slice
whose start is the index of the first occurrence of `r` and whose stop is
one past the index of the last occurrence of `r`. -/
theorem run_slice_bounds {α : Type} [DecidableEq α] (r : α) (rl : List α)
    (hmem : r ∈ rl) (_hcont : Contiguous r rl) :
    ∃ s e, run_slice r rl = some (s, e) ∧
      rl[s]? = some r ∧ (∀ i, i < s → rl[i]? ≠ some r) ∧
      1 ≤ e ∧ rl[e - 1]? = some r ∧ ∀ i, e ≤ i → rl[i]? ≠ some r := by
  obtain ⟨s, hsx⟩ := pyIndex_of_mem rl r hmem
  obtain ⟨j, hjx⟩ := pyIndex_of_mem rl.reverse r (List.mem_reverse.mpr hmem)
  obtain ⟨hs1, hs2⟩ := pyIndex_eq_some rl r s hsx
  obtain ⟨hj1, hj2⟩ := pyIndex_eq_some rl.reverse r j hjx
  have hjlen : j < rl.length := by
    have := List.getElem?_eq_some.mp hj1
    obtain ⟨hlt, _⟩ := this
    rw [List.length_reverse] at hlt
    exact hlt
  refine ⟨s, rl.length - j, ?_, hs1, hs2, ?_, ?_, ?_⟩
  · unfold run_slice
    rw [hsx, hjx]
  · omega
  · have harith : rl.length - j - 1 = rl.length - 1 - j := by omega
    rw [harith, ← List.getElem?_reverse hjlen]
    exact hj1
  · intro i hi
    by_cases hilen : i < rl.length
    · have hrev : rl.reverse[rl.length - 1 - i]? = rl[i]? := by
        have h2 : rl.length - 1 - i < rl.length := by omega
        rw [List.getElem?_reverse h2]
        have : rl.length - 1 - (rl.length - 1 - i) = i := by omega
        rw [this]
      rw [← hrev]
      exact hj2 (rl.length - 1 - i) (by omega)
    · rw [List.getElem?_eq_none (by omega)]
      intro he
      cases he

/-- Witness for `run_slice_bounds`: on `run_list = [1, 2, 2, 3]` and
`run = 2` the slice is `(1, 3)`. -/
theorem run_slice_bounds_witness :
    (2 ∈ [1, 2, 2, 3]) ∧ Contiguous 2 [1, 2, 2, 3] ∧
      ∃ s e, run_slice 2 [1, 2, 2, 3] = some (s, e) ∧
        [1, 2, 2, 3][s]? = some 2 ∧ (∀ i, i < s → [1, 2, 2, 3][i]? ≠ some 2) ∧
        1 ≤ e ∧ [1, 2, 2, 3][e - 1]? = some 2 ∧
        ∀ i, e ≤ i → [1, 2, 2, 3][i]? ≠ some 2 :=
  ⟨by decide, by decide, run_slice_bounds 2 [1, 2, 2, 3] (by decide) (by decide)⟩

/-! ## C2 and C9: `Logger.mean_values` -/

/-- The length of the longest element list (the number of rows produced by
`itertools.zip_longest(*metric_list)`). -/
def maxLen {α : Type} (ls : List (List α)) : ℕ :=
  ls.foldr (fun l acc => max l.length acc) 0

/-- `itertools.zip_longest(*metric_list, fillvalue=None)` followed by
`list(map(list, ...))`: row `e` holds, for each run in order, the run's
`e`-th value or the fill value `None` (`Option.none`). -/
def zipLongest {α : Type} (ls : List (List α)) : List (List (Option α)) :=
  (List.range (maxLen ls)).map (fun e => ls.map (fun run => run[e]?))

/-- `np.mean` on a list of numbers. -/
def meanQ (l : List ℚ) : ℚ := l.sum / l.length

/-- `Logger.mean_values(metric_list)` (lines 241-261 of `logger.py`):
pivot via `zip_longest`, then the unconditional
`epoch_metric[2].append(None)` — an `IndexError` (`Option.none`) when
there are fewer than three rows — then drop the `None`s from every row and
take `np.mean` of each row. -/
def mean_values (metric_list : List (List ℚ)) : Option (List ℚ) :=
  if h : 2 < (zipLongest metric_list).length then
    some ((((zipLongest metric_list).set 2
        ((zipLongest metric_list).get ⟨2, h⟩ ++ [Option.none])).map
          (fun row => row.filterMap id)).map meanQ)
  else Option.none

theorem zipLongest_length {α : Type} (ls : List (List α)) :
    (zipLongest ls).length = maxLen ls := by
  simp [zipLongest]

theorem lt_maxLen {α : Type} (ls : List (List α)) (e : ℕ)
    (h : e < maxLen ls) : ∃ l ∈ ls, e < l.length := by
  induction ls with
  | nil => simp [maxLen] at h
  | cons x rest ih =>
    unfold maxLen at h
    rw [List.foldr_cons] at h
    rcases lt_max_iff.mp h with h1 | h1
    · exact ⟨x, List.mem_cons_self _ _, h1⟩
    · obtain ⟨l, hl, hlen⟩ := ih h1
      exact ⟨l, List.mem_cons_of_mem _ hl, hlen⟩

theorem zipLongest_getElem {α : Type} (ls : List (List α)) (e : ℕ)
    (h : e < maxLen ls) :
    (zipLongest ls)[e]? = some (ls.map (fun run => run[e]?)) := by
  unfold zipLongest
  rw [List.getElem?_map, List.getElem?_range h]
  rfl

/-- C9: whenever the longest element list of `metric_list` has fewer than
three entries, `Logger.mean_values` raises `IndexError` at
`epoch_metric[2].append(None)` instead of returning the means. -/
theorem mean_values_short_raises (ml : List (List ℚ)) (h : maxLen ml < 3) :
    mean_values ml = Option.none := by
  unfold mean_values
  rw [dif_neg]
  rw [zipLongest_length]
  omega

/-- Witness for `mean_values_short_raises` on `[[1], [2, 3]]`. -/
theorem mean_values_short_raises_witness :
    maxLen [[(1 : ℚ)], [2, 3]] < 3 ∧
      mean_values [[(1 : ℚ)], [2, 3]] = Option.none :=
  ⟨by decide, mean_values_short_raises [[(1 : ℚ)], [2, 3]] (by decide)⟩

/-- C2 (counterexample to the claim as stated): on the non-empty
`metric_list = [[1]]` the function does not return the per-epoch means
`[1]`; it raises `IndexError` (`Option.none`). -/
theorem mean_values_singleton_cex :
    mean_values [[(1 : ℚ)]] = Option.none ∧
      (Option.none : Option (List ℚ)) ≠ some [(1 : ℚ)] := by
  refine ⟨by rfl, ?_⟩
  intro h
  cases h

/-- C2 (amended claim): for every `metric_list` whose longest element list
has at least three entries, `mean_values` returns the list with one entry
per epoch index `e < maxLen`, each entry being the arithmetic mean of the
`e`-th values of exactly those runs having at least `e+1` entries (the
appended `None` at epoch 2 is removed again with the fill values, so it
does not affect the result). -/
theorem mean_values_spec (ml : List (List ℚ)) (h : 3 ≤ maxLen ml) :
    ∃ res, mean_values ml = some res ∧ res.length = maxLen ml ∧
      ∀ e, e < maxLen ml →
        ml.filterMap (fun run => run[e]?) ≠ [] ∧
        res[e]? = some (meanQ (ml.filterMap (fun run => run[e]?))) := by
  have hlen := zipLongest_length ml
  have h2 : 2 < (zipLongest ml).length := by omega
  unfold mean_values
  rw [dif_pos h2]
  refine ⟨_, rfl, ?_, ?_⟩
  · simp only [List.length_map, List.length_set]
    exact hlen
  · intro e he
    constructor
    · obtain ⟨run, hrun, hlen_run⟩ := lt_maxLen ml e he
      have hx : ∃ x, run[e]? = some x := by
        cases hq : run[e]? with
        | some x => exact ⟨x, rfl⟩
        | none =>
          rw [List.getElem?_eq_none_iff] at hq
          omega
      obtain ⟨x, hx⟩ := hx
      exact List.ne_nil_of_mem (List.mem_filterMap.mpr ⟨run, hrun, hx⟩)
    · rw [List.getElem?_map, List.getElem?_map]
      by_cases he2 : e = 2
      · subst he2
        have hrow : (zipLongest ml).get ⟨2, h2⟩ = ml.map (fun r => r[2]?) := by
          have hg1 := zipLongest_getElem ml 2 (by omega)
          have hg2 := List.getElem?_eq_getElem h2
          rw [hg2] at hg1
          rw [List.get_eq_getElem]
          exact Option.some.injEq _ _ ▸ hg1
        rw [List.getElem?_set]
        rw [if_pos rfl, if_pos (by omega), hrow]
        simp [List.filterMap_append, List.filterMap_map, Function.id_comp]
      · rw [List.getElem?_set_ne (fun hh => he2 hh.symm)]
        rw [zipLongest_getElem ml e he]
        simp [List.filterMap_map, Function.id_comp]

/-- Concrete metric list used by the witness of `mean_values_spec`. -/
def mlSample : List (List ℚ) := [[1, 2, 3], [4, 5]]

/-- Witness for `mean_values_spec` on `[[1, 2, 3], [4, 5]]`. -/
theorem mean_values_spec_witness :
    3 ≤ maxLen mlSample ∧
      ∃ res, mean_values mlSample = some res ∧ res.length = maxLen mlSample ∧
        ∀ e, e < maxLen mlSample →
          mlSample.filterMap (fun run => run[e]?) ≠ [] ∧
          res[e]? = some (meanQ (mlSample.filterMap (fun run => run[e]?))) :=
  ⟨by decide, mean_values_spec mlSample (by decide)⟩

/-! ## C10: the run `Logger.plot_run` selects -/

/-- Python truthiness of a value (`if not run:`). -/
def pyFalsy : PyVal → Bool
  | PyVal.none => true
  | PyVal.num q => decide (q = 0)
  | PyVal.str s => decide (s = "")
  | PyVal.list l => l.isEmpty
  | PyVal.dict d => d.isEmpty

/-- Interpret a Python list as a list of numbers (`np.argmax`, `min`/`max`
comparisons raise `TypeError` on non-numeric entries). -/
def asNums : List PyVal → Option (List ℚ)
  | [] => some []
  | PyVal.num q :: rest => (asNums rest).map (q :: ·)
  | _ => Option.none

/-- The maximum of a non-empty list of numbers (`0` on `[]`, unused). -/
def maxQ : List ℚ → ℚ
  | [] => 0
  | [x] => x
  | x :: y :: rest => max x (maxQ (y :: rest))

/-- `np.argmax`: the index of the first occurrence of the maximum. -/
def argmaxIdx : List ℚ → ℕ
  | [] => 0
  | [_] => 0
  | x :: y :: rest => if maxQ (y :: rest) ≤ x then 0 else argmaxIdx (y :: rest) + 1

/-- The run-selection logic of `Logger.plot_run` (lines 86-96): read
`runs = self.logs['run']`; if `run` is falsy, replace it by
`runs[np.argmax(self.logs['valid_loss'])]`.  Errors (`np.argmax` of an
empty or non-numeric list, index out of range, non-list values) are
`Option.none`; the plotting calls that follow do not change the selected
run. -/
def plotRunSelect (logs : Logs) (run : PyVal) : Option PyVal :=
  let runsV := ddLookup logs "run"
  if pyFalsy run then
    match ddLookup logs "valid_loss" with
    | PyVal.list vl =>
      match asNums vl with
      | some qs =>
        if qs = [] then Option.none
        else
          match runsV with
          | PyVal.list runs => runs[argmaxIdx qs]?
          | _ => Option.none
      | Option.none => Option.none
    | _ => Option.none
  else some run

theorem maxQ_mem_le (l : List ℚ) : ∀ x ∈ l, x ≤ maxQ l := by
  induction l with
  | nil => intro x hx; cases hx
  | cons a rest ih =>
    intro x hx
    cases rest with
    | nil =>
      rcases List.mem_singleton.mp hx with rfl
      exact le_refl _
    | cons y rest2 =>
      rcases List.mem_cons.mp hx with rfl | hmem
      · exact le_max_left _ _
      · exact le_trans (ih x hmem) (le_max_right _ _)

theorem argmaxIdx_spec (l : List ℚ) (h : l ≠ []) :
    l[argmaxIdx l]? = some (maxQ l) := by
  induction l with
  | nil => exact absurd rfl h
  | cons a rest ih =>
    cases rest with
    | nil => rfl
    | cons y rest2 =>
      have hm : maxQ (a :: y :: rest2) = max a (maxQ (y :: rest2)) := rfl
      have ha : argmaxIdx (a :: y :: rest2) =
          if maxQ (y :: rest2) ≤ a then 0 else argmaxIdx (y :: rest2) + 1 := rfl
      rw [ha, hm]
      by_cases hc : maxQ (y :: rest2) ≤ a
      · rw [if_pos hc, List.getElem?_cons_zero, max_eq_left hc]
      · rw [if_neg hc, List.getElem?_cons_succ,
          max_eq_right (le_of_not_le hc)]
        exact ih (by intro hx; cases hx)

/-- C10: when `plot_run` is called with a falsy `run` (such as `None` or
`0`), the run it selects is `runs[np.argmax(logs['valid_loss'])]` — an
index at which `valid_loss` attains its maximum, i.e. the epoch with the
highest logged validation loss. -/
theorem plot_run_selects_argmax (logs : Logs) (run : PyVal)
    (runs vl : List PyVal) (qs : List ℚ)
    (hfalsy : pyFalsy run = true)
    (hr : ddLookup logs "run" = PyVal.list runs)
    (hv : ddLookup logs "valid_loss" = PyVal.list vl)
    (hq : asNums vl = some qs)
    (hne : qs ≠ [])
    (hlen : argmaxIdx qs < runs.length) :
    ∃ sel, plotRunSelect logs run = some sel ∧
      runs[argmaxIdx qs]? = some sel ∧
      qs[argmaxIdx qs]? = some (maxQ qs) ∧
      ∀ x ∈ qs, x ≤ maxQ qs := by
  obtain ⟨sel, hsel⟩ : ∃ sel, runs[argmaxIdx qs]? = some sel :=
    ⟨runs.get ⟨argmaxIdx qs, hlen⟩, List.getElem?_eq_getElem hlen⟩
  refine ⟨sel, ?_, hsel, argmaxIdx_spec qs hne, maxQ_mem_le qs⟩
  unfold plotRunSelect
  rw [hr, hv]
  rw [if_pos hfalsy]
  dsimp only
  rw [hq]
  dsimp only
  rw [if_neg hne]
  exact hsel

/-- Concrete logs used by the witness of `plot_run_selects_argmax`. -/
def logsPlot : Logs :=
  [("run", PyVal.list [PyVal.num 1, PyVal.num 1, PyVal.num 2]),
   ("valid_loss", PyVal.list [PyVal.num 5, PyVal.num 7, PyVal.num 6])]

/-- Witness for `plot_run_selects_argmax`: the maximal validation loss `7`
sits at index 1, so the run `1` recorded there is selected. -/
theorem plot_run_selects_argmax_witness :
    pyFalsy PyVal.none = true ∧
      asNums [PyVal.num 5, PyVal.num 7, PyVal.num 6] = some [5, 7, 6] ∧
      ∃ sel, plotRunSelect logsPlot PyVal.none = some sel ∧
        [PyVal.num 1, PyVal.num 1, PyVal.num 2][argmaxIdx [5, 7, 6]]? = some sel ∧
        ([5, 7, 6] : List ℚ)[argmaxIdx [5, 7, 6]]? = some (maxQ [5, 7, 6]) ∧
        ∀ x ∈ ([5, 7, 6] : List ℚ), x ≤ maxQ [5, 7, 6] :=
  ⟨rfl, rfl,
    plot_run_selects_argmax logsPlot PyVal.none
      [PyVal.num 1, PyVal.num 1, PyVal.num 2]
      [PyVal.num 5, PyVal.num 7, PyVal.num 6] [5, 7, 6]
      rfl rfl rfl rfl (by decide) (by decide)⟩

/-! ## C5: `Logger.save` / `Logger.load` round-trip -/

/-- JSON values, as produced by `json.dump` and consumed by `json.load`. -/
inductive Json : Type where
  | null : Json
  | num (q : ℚ) : Json
  | str (s : String) : Json
  | arr (l : List Json) : Json
  | obj (o : List (String × Json)) : Json

mutual

/-- `json.dump` on a single Python value. -/
def dumpVal : PyVal → Json
  | PyVal.none => Json.null
  | PyVal.num q => Json.num q
  | PyVal.str s => Json.str s
  | PyVal.list l => Json.arr (dumpList l)
  | PyVal.dict d => Json.obj (dumpDict d)

def dumpList : List PyVal → List Json
  | [] => []
  | v :: rest => dumpVal v :: dumpList rest

def dumpDict : List (String × PyVal) → List (String × Json)
  | [] => []
  | (k, v) :: rest => (k, dumpVal v) :: dumpDict rest

end

mutual

/-- `json.load` on a single JSON value. -/
def loadVal : Json → PyVal
  | Json.null => PyVal.none
  | Json.num q => PyVal.num q
  | Json.str s => PyVal.str s
  | Json.arr l => PyVal.list (loadList l)
  | Json.obj o => PyVal.dict (loadDict o)

def loadList : List Json → List PyVal
  | [] => []
  | v :: rest => loadVal v :: loadList rest

def loadDict : List (String × Json) → List (String × PyVal)
  | [] => []
  | (k, v) :: rest => (k, loadVal v) :: loadDict rest

end

mutual

theorem load_dumpVal : ∀ v : PyVal, loadVal (dumpVal v) = v
  | PyVal.none => rfl
  | PyVal.num q => rfl
  | PyVal.str s => rfl
  | PyVal.list l => by rw [dumpVal, loadVal, load_dumpList l]
  | PyVal.dict d => by rw [dumpVal, loadVal, load_dumpDict d]

theorem load_dumpList : ∀ l : List PyVal, loadList (dumpList l) = l
  | [] => rfl
  | v :: rest => by rw [dumpList, loadList, load_dumpVal v, load_dumpList rest]

theorem load_dumpDict : ∀ d : List (String × PyVal), loadDict (dumpDict d) = d
  | [] => rfl
  | (k, v) :: rest => by
    rw [dumpDict, loadDict, load_dumpVal v, load_dumpDict rest]

end

/-- Python `str.endswith(suffix)` (on character lists, so that concrete
instances evaluate in the kernel). -/
def pyEndsWith (s suffix : String) : Bool :=
  List.isSuffixOf suffix.data s.data

/-- `Logger.save(filepath)`: assert the `.json` suffix, then
`json.dump(self.logs, fp)` — the JSON value written to the file
(`Option.none` models the failed assertion). -/
def save (logs : Logs) (filepath : String) : Option Json :=
  if pyEndsWith filepath ".json" then some (Json.obj (dumpDict logs))
  else Option.none

/-- `Logger.load(filepath)`: `self.logs = json.load(fp)` applied to the
JSON value stored in the file (a non-object file would make `self.logs` a
non-dict, which the typed model reports as `Option.none`; a round-trip
always stores an object). -/
def loadLogs : Json → Option Logs
  | Json.obj o => some (loadDict o)
  | _ => Option.none

/-- C5: saving the logs to a `.json` path and loading the same file back
restores `self.logs` to a mapping equal to the one saved.  (Every model
value is JSON-serialisable, so the claim's serialisability hypothesis is
automatic.) -/
theorem save_load_roundtrip (logs : Logs) (p : String)
    (h : pyEndsWith p ".json" = true) :
    ∃ j, save logs p = some j ∧ loadLogs j = some logs := by
  refine ⟨Json.obj (dumpDict logs), ?_, ?_⟩
  · unfold save
    rw [if_pos h]
  · show some (loadDict (dumpDict logs)) = some logs
    rw [load_dumpDict logs]

/-- Witness for `save_load_roundtrip` on a freshly constructed logger. -/
theorem save_load_roundtrip_witness :
    (pyEndsWith "logs.json" ".json" = true) ∧
      ∃ j, save (initLogs PyVal.none) "logs.json" = some j ∧
        loadLogs j = some (initLogs PyVal.none) :=
  ⟨by decide, save_load_roundtrip (initLogs PyVal.none) "logs.json" (by decide)⟩

/-! ## C6: the state effect of `Logger.print` and `Logger.print_experiment`

`Logger.print` only reads `self.logs`, but a read on a missing key mutates
a `defaultdict` (inserting the key with `[]`), while after `load` /
`print_experiment`'s `self.logs = log` the mapping is a plain dict and a
missing key raises `KeyError` instead.  The flag of `readKey` selects
between the two behaviours.  The computed means/stds and the terminal
output of `print` touch no state and are elided; only the reads, the
control flow and the failure points (lines 185-207) are modelled. -/

/-- The keys `Logger.print` reads from `self.logs`. -/
def printKeys : List String :=
  ["run", "valid_loss", "train_loss", "train_roc", "valid_roc"]

/-- Read `self.logs[k]`: on a `defaultdict(list)` (`flag = true`) a missing
key is inserted with `[]`; on a plain dict (`flag = false`) a missing key
raises `KeyError` (`Option.none`). -/
def readKey (flag : Bool) (logs : Logs) (k : String) : Option (PyVal × Logs) :=
  match dictGet logs k with
  | some v => some (v, logs)
  | Option.none =>
    if flag then some (PyVal.list [], logs ++ [(k, PyVal.list [])])
    else Option.none

/-- Interpret a Python list as a list of ints (run numbers feed
`range(1, num_runs+1)`, which needs an int). -/
def asInts : List PyVal → Option (List ℤ)
  | [] => some []
  | PyVal.num q :: rest =>
    if q.den = 1 then (asInts rest).map (q.num :: ·) else Option.none
  | _ => Option.none

/-- Python `max` on a list of ints (`ValueError` on the empty list). -/
def maxZ : List ℤ → Option ℤ
  | [] => Option.none
  | x :: rest => some (rest.foldl max x)

/-- `range(1, num_runs + 1)` as a list of ints (empty when
`num_runs ≤ 0`). -/
def runsRange (n : ℤ) : List ℤ :=
  (List.range n.toNat).map (fun i => (i : ℤ) + 1)

/-- Python slice `l[a:b]` for `0 ≤ a ≤ b` (clamping like Python). -/
def sliceList {α : Type} (l : List α) (a b : ℕ) : List α :=
  (l.drop a).take (b - a)

/-- The minimum of a non-empty list of numbers (`0` on `[]`, unused). -/
def minQ : List ℚ → ℚ
  | [] => 0
  | [x] => x
  | x :: y :: rest => min x (minQ (y :: rest))

/-- `min(range(len(l)), key=l.__getitem__)`: the index of the first
occurrence of the minimum. -/
def argminIdx : List ℚ → ℕ
  | [] => 0
  | [_] => 0
  | x :: y :: rest => if x ≤ minQ (y :: rest) then 0 else argminIdx (y :: rest) + 1

/-- One of the four accumulator lines 204-207 of `Logger.print`:
`xs.append(self.logs[key][run_start:run_end][best_idx])`.  The appended
value goes into a local Python list, so only the read of `self.logs[key]`,
the list check and the `IndexError` bound check matter for the state. -/
def pickBest (flag : Bool) (logs : Logs) (key : String) (a b best : ℕ) :
    Logs × Bool :=
  match readKey flag logs key with
  | Option.none => (logs, false)
  | some (PyVal.list l, logs1) =>
    match (sliceList l a b)[best]? with
    | some _ => (logs1, true)
    | Option.none => (logs1, false)
  | some (_, logs1) => (logs1, false)

/-- Sequencing of statements: a raised exception skips the rest. -/
def seqStep (st : Logs × Bool) (f : Logs → Logs × Bool) : Logs × Bool :=
  if st.2 then f st.1 else st

/-- The body of the `for r in range(1, num_runs+1)` loop of `Logger.print`
(lines 193-207): `runs.index(r)` twice, the best-epoch search over the
`valid_loss` slice, then the four metric reads. -/
def printBody (flag : Bool) (runs : List ℤ) (r : ℤ) (logs : Logs) :
    Logs × Bool :=
  match pyIndex runs r with
  | Option.none => (logs, false)
  | some run_start =>
    match pyIndex runs.reverse r with
    | Option.none => (logs, false)
    | some j =>
      match readKey flag logs "valid_loss" with
      | Option.none => (logs, false)
      | some (PyVal.list vl, logs1) =>
        match asNums (sliceList vl run_start (runs.length - j)) with
        | Option.none => (logs1, false)
        | some qs =>
          if qs = [] then (logs1, false)
          else
            seqStep (seqStep (seqStep
              (pickBest flag logs1 "train_loss" run_start
                (runs.length - j) (argminIdx qs))
              (fun lg => pickBest flag lg "train_roc" run_start
                (runs.length - j) (argminIdx qs)))
              (fun lg => pickBest flag lg "valid_loss" run_start
                (runs.length - j) (argminIdx qs)))
              (fun lg => pickBest flag lg "valid_roc" run_start
                (runs.length - j) (argminIdx qs))
      | some (_, logs1) => (logs1, false)

/-- The loop of `Logger.print` over `r = 1 .. num_runs`. -/
def printLoop (flag : Bool) (runs : List ℤ) (logs : Logs) :
    List ℤ → Logs × Bool
  | [] => (logs, true)
  | r :: rest =>
    if (printBody flag runs r logs).2 then
      printLoop flag runs (printBody flag runs r logs).1 rest
    else printBody flag runs r logs

/-- `Logger.print(round_to)` as a state transformer on `self.logs`: the
read of `self.logs['run']`, `max(runs)`, the per-run loop, and then the
mean/std computation and printing of lines 210-227, which touch no state
(`round_to` only affects the printed text). -/
def printRun (flag : Bool) (logs : Logs) : Logs × Bool :=
  match readKey flag logs "run" with
  | Option.none => (logs, false)
  | some (PyVal.list rl, logs1) =>
    match asInts rl with
    | Option.none => (logs1, false)
    | some runs =>
      match maxZ runs with
      | Option.none => (logs1, false)
      | some num_runs => printLoop flag runs logs1 (runsRange num_runs)
  | some (_, logs1) => (logs1, false)

/-- Whether `print(log['info']['model_type'])` (line 404) succeeds. -/
def infoOk (fl : Logs) : Bool :=
  match dictGet fl "info" with
  | some (PyVal.dict info) => (dictGet info "model_type").isSome
  | _ => false

/-- `Logger.print_experiment(filepath)` on the list of experiment logs
stored in the file: for each log, print its model type, execute
`self.logs = log`, and run `self.print(round_to=3)` — on the now plain
dict `self.logs`, hence `readKey` with `flag = false`. -/
def printExperiment (logs : Logs) : List Logs → Logs × Bool
  | [] => (logs, true)
  | fl :: rest =>
    if infoOk fl then
      if (printRun false fl).2 then printExperiment (printRun false fl).1 rest
      else ((printRun false fl).1, false)
    else (logs, false)

theorem pickBest_pres (flag : Bool) (logs : Logs) (key : String)
    (a b best : ℕ)
    (h : (dictGet logs key).isSome = true ∨ flag = false) :
    (pickBest flag logs key a b best).1 = logs := by
  unfold pickBest readKey
  cases hget : dictGet logs key with
  | some v =>
    cases v with
    | list l =>
      dsimp only
      cases (sliceList l a b)[best]? <;> rfl
    | none => rfl
    | num q => rfl
    | str s => rfl
    | dict d => rfl
  | none =>
    rcases h with h1 | h1
    · rw [hget] at h1
      cases h1
    · rw [h1]
      rfl

theorem seqStep_pres (st : Logs × Bool) (f : Logs → Logs × Bool)
    (logs : Logs) (h1 : st.1 = logs) (h2 : (f logs).1 = logs) :
    (seqStep st f).1 = logs := by
  unfold seqStep
  by_cases hb : st.2 = true
  · rw [if_pos hb, h1, h2]
  · rw [if_neg hb]
    exact h1

theorem printBody_pres (flag : Bool) (runs : List ℤ) (r : ℤ) (logs : Logs)
    (h : (∀ k ∈ printKeys, (dictGet logs k).isSome = true) ∨ flag = false) :
    (printBody flag runs r logs).1 = logs := by
  have hk : ∀ k, k ∈ printKeys →
      (dictGet logs k).isSome = true ∨ flag = false := by
    rcases h with h1 | h1
    · exact fun k hkm => Or.inl (h1 k hkm)
    · exact fun k _ => Or.inr h1
  have hvl : (dictGet logs "valid_loss").isSome = true ∨ flag = false :=
    hk "valid_loss" (by decide)
  unfold printBody
  cases pyIndex runs r with
  | none => rfl
  | some run_start =>
    dsimp only
    cases pyIndex runs.reverse r with
    | none => rfl
    | some j =>
      dsimp only
      have hread : readKey flag logs "valid_loss" = Option.none ∨
          readKey flag logs "valid_loss" =
            some (ddLookup logs "valid_loss", logs) := by
        unfold readKey ddLookup
        cases hget : dictGet logs "valid_loss" with
        | some v => exact Or.inr rfl
        | none =>
          rcases hvl with h1 | h1
          · rw [hget] at h1; cases h1
          · rw [h1]; exact Or.inl rfl
      rcases hread with h1 | h1
      · rw [h1]
      · rw [h1]
        cases hcur : ddLookup logs "valid_loss" with
        | list vl =>
          dsimp only
          cases asNums (sliceList vl run_start (runs.length - j)) with
          | none => rfl
          | some qs =>
            dsimp only
            by_cases hq : qs = []
            · rw [if_pos hq]
            · rw [if_neg hq]
              have hp1 := pickBest_pres flag logs "train_loss" run_start
                (runs.length - j) (argminIdx qs) (hk "train_loss" (by decide))
              have hp2 := pickBest_pres flag logs "train_roc" run_start
                (runs.length - j) (argminIdx qs) (hk "train_roc" (by decide))
              have hp3 := pickBest_pres flag logs "valid_loss" run_start
                (runs.length - j) (argminIdx qs) (hk "valid_loss" (by decide))
              have hp4 := pickBest_pres flag logs "valid_roc" run_start
                (runs.length - j) (argminIdx qs) (hk "valid_roc" (by decide))
              exact seqStep_pres _ _ logs
                (seqStep_pres _ _ logs (seqStep_pres _ _ logs hp1 hp2) hp3) hp4
        | none => rfl
        | num q => rfl
        | str s => rfl
        | dict d => rfl

theorem printLoop_pres (flag : Bool) (runs : List ℤ) (logs : Logs)
    (lst : List ℤ)
    (h : (∀ k ∈ printKeys, (dictGet logs k).isSome = true) ∨ flag = false) :
    (printLoop flag runs logs lst).1 = logs := by
  induction lst generalizing logs with
  | nil => rfl
  | cons r rest ih =>
    unfold printLoop
    have hb := printBody_pres flag runs r logs h
    by_cases hok : (printBody flag runs r logs).2 = true
    · rw [if_pos hok, hb]
      exact ih logs h
    · rw [if_neg hok]
      exact hb

theorem printRun_pres (flag : Bool) (logs : Logs)
    (h : (∀ k ∈ printKeys, (dictGet logs k).isSome = true) ∨ flag = false) :
    (printRun flag logs).1 = logs := by
  unfold printRun readKey
  cases hget : dictGet logs "run" with
  | some v =>
    cases v with
    | list rl =>
      dsimp only
      cases asInts rl with
      | none => rfl
      | some runs =>
        dsimp only
        cases maxZ runs with
        | none => rfl
        | some num_runs =>
          exact printLoop_pres flag runs logs (runsRange num_runs) h
    | none => rfl
    | num q => rfl
    | str s => rfl
    | dict d => rfl
  | none =>
    rcases h with h1 | h1
    · have := h1 "run" (by decide)
      rw [hget] at this
      cases this
    · rw [h1]
      rfl

theorem printExperiment_last (fileLogs : List Logs) : ∀ logs : Logs,
    (printExperiment logs fileLogs).2 = true → fileLogs ≠ [] →
    ∃ fl, fileLogs.getLast? = some fl ∧ (printExperiment logs fileLogs).1 = fl := by
  induction fileLogs with
  | nil => intro logs _ hne; exact absurd rfl hne
  | cons fl rest ih =>
    intro logs h _
    unfold printExperiment at h ⊢
    by_cases hio : infoOk fl = true
    · rw [if_pos hio] at h ⊢
      by_cases hpr : (printRun false fl).2 = true
      · rw [if_pos hpr] at h ⊢
        have hid : (printRun false fl).1 = fl := printRun_pres false fl (Or.inr rfl)
        cases rest with
        | nil =>
          refine ⟨fl, rfl, ?_⟩
          unfold printExperiment
          exact hid
        | cons fl2 rest2 =>
          obtain ⟨last, hlast, hres⟩ :=
            ih ((printRun false fl).1) h (by intro hx; cases hx)
          refine ⟨last, ?_, hres⟩
          rw [List.getLast?_cons_cons]
          exact hlast
      · rw [if_neg hpr] at h
        exact Bool.noConfusion h
    · rw [if_neg hio] at h
      exact Bool.noConfusion h

/-- C6 (amended claim): `Logger.print(round_to)` leaves `self.logs`
unchanged whenever the keys it reads (`run`, `valid_loss`, `train_loss`,
`train_roc`, `valid_roc`) are present (a missing key is either inserted
with `[]` by the defaultdict or raises `KeyError`); `print_experiment`, by
contrast, reassigns `self.logs`: a successful call on a file holding at
least one log leaves `self.logs` equal to the file's last log. -/
theorem print_frame_amended (flag : Bool) (logs : Logs)
    (fileLogs : List Logs)
    (hkeys : ∀ k ∈ printKeys, (dictGet logs k).isSome = true) :
    (printRun flag logs).1 = logs ∧
      ((printExperiment logs fileLogs).2 = true → fileLogs ≠ [] →
        ∃ fl, fileLogs.getLast? = some fl ∧
          (printExperiment logs fileLogs).1 = fl) :=
  ⟨printRun_pres flag logs (Or.inl hkeys),
   fun h hne => printExperiment_last fileLogs logs h hne⟩

/-- Concrete logs with all print keys present, for the witness. -/
def logsFull : Logs :=
  [("info", PyVal.none),
   ("run", PyVal.list [PyVal.num 1]),
   ("valid_loss", PyVal.list [PyVal.num 3]),
   ("train_loss", PyVal.list [PyVal.num 2]),
   ("train_roc", PyVal.list [PyVal.num 1]),
   ("valid_roc", PyVal.list [PyVal.num 1])]

/-- Witness for `print_frame_amended`. -/
theorem print_frame_amended_witness :
    (∀ k ∈ printKeys, (dictGet logsFull k).isSome = true) ∧
      ((printRun true logsFull).1 = logsFull ∧
        ((printExperiment logsFull [logsFull]).2 = true → [logsFull] ≠ [] →
          ∃ fl, [logsFull].getLast? = some fl ∧
            (printExperiment logsFull [logsFull]).1 = fl)) :=
  ⟨by decide, print_frame_amended true logsFull [logsFull] (by decide)⟩

/-- Experiment log whose `print` raises (`max` of the empty run list), used
to exhibit the `self.logs` reassignment of `print_experiment`. -/
def flBroken : Logs :=
  [("info", PyVal.dict [("model_type", PyVal.str "GNN")]),
   ("run", PyVal.list [])]

/-- C6 (counterexample to the claim as stated): `print_experiment` on a
file holding one log executes `self.logs = log`; afterwards `self.logs`
has a `'run'` entry the original logger state did not have, so
`self.logs` is not equal to its value before the call. -/
theorem print_experiment_mutates_cex :
    dictGet (printExperiment (initLogs PyVal.none) [flBroken]).1 "run" =
        some (PyVal.list []) ∧
      dictGet (initLogs PyVal.none) "run" = Option.none :=
  ⟨rfl, rfl⟩

end Multiprop
